import Mathlib

/-!
Shallow embedding of the Sync-Watch server core
(src/server/StreamingServer.js — RoomManager + range route,
src/server/SocketHandler.js, src/server/SecurityManager.js).

JavaScript `Map` objects are modelled as association lists that preserve
insertion order (`Map.set` on an existing key replaces the value in place;
`Map.delete` removes the entry).  JavaScript plain objects used as video
state are modelled as functions `String → Option JsVal` (key-wise lookup;
`none` means the property is absent).  Randomness (`crypto.randomBytes`,
`Math.random`) and wall-clock time (`new Date()`) are passed in explicitly.
The salted SHA-256 digest `SecurityManager.hashPassword` is an explicit
function parameter wherever it matters; theorems about it only assume that
a SHA-256 hex digest has 64 characters.
-/

namespace SyncWatch

/-- A JavaScript primitive value, as far as the room state needs. -/
inductive JsVal where
  | str (s : String)
  | num (n : Int)
  | bool (b : Bool)
  | null
  deriving DecidableEq, Repr

/-- A JavaScript plain object, modelled key-wise: `none` = property absent. -/
abbrev JsObj : Type := String → Option JsVal

/-- `{...a, ...b}`: a key present in `b` wins, otherwise `a`'s value is kept. -/
def objSpread (a b : JsObj) : JsObj :=
  fun k => match b k with
    | some v => some v
    | none => a k

/-- JavaScript `x || dflt` on an optional string: `undefined` and `""` are falsy. -/
def jsOrStr (v : Option String) (dflt : String) : String :=
  match v with
  | some s => if s = "" then dflt else s
  | none => dflt

/-- JavaScript truthiness of an optional string (`undefined` and `""` are falsy). -/
def jsTruthyStr (v : Option String) : Bool :=
  match v with
  | some s => s ≠ ""
  | none => false

/-- JavaScript `parseInt(x) || dflt`: `NaN` (absent) and `0` fall back to `dflt`. -/
def jsOrNat (v : Option Nat) (dflt : Nat) : Nat :=
  match v with
  | some n => if n = 0 then dflt else n
  | none => dflt

/-- A room member (`RoomManager.addUser` object literal). -/
structure User where
  id : String
  name : Option String
  isAdmin : Bool
  joinedAt : Nat
  deriving DecidableEq, Repr

/-- Insertion-ordered map, the model of a JavaScript `Map`. -/
abbrev UserMap : Type := List (String × User)

/-- `Map.get`. -/
def mapGet (m : UserMap) (k : String) : Option User :=
  (m.find? (fun p => p.1 = k)).map (fun p => p.2)

/-- `Map.set`: replaces in place when the key exists, appends otherwise. -/
def mapSet (m : UserMap) (k : String) (v : User) : UserMap :=
  if (m.find? (fun p => p.1 = k)).isSome then
    m.map (fun p => if p.1 = k then (k, v) else p)
  else
    m ++ [(k, v)]

/-- `Map.delete`. -/
def mapDelete (m : UserMap) (k : String) : UserMap :=
  m.filter (fun p => p.1 ≠ k)

/-- The room entity created by `RoomManager.createRoom`. -/
structure Room where
  id : String
  name : String
  password : String
  privacy : String
  maxUsers : Nat
  admin : Option String
  users : UserMap
  videoState : JsObj

/-- Entropy consumed by the id generators: `byte i` models `crypto.randomBytes`,
`idx i` models `Math.floor(Math.random() * chars.length)`. -/
structure Entropy where
  byte : Nat → Nat
  idx : Nat → Nat

/-- The fallback generation alphabet of `RoomManager.generateRoomId`
(`"ABCDEFGHIJKLMNPQRSTUVWXYZ123456789"`, 34 characters, no `O`, no `0`). -/
def fallbackAlphabet : List Char :=
  "ABCDEFGHIJKLMNPQRSTUVWXYZ123456789".toList

/-- `RoomManager.generateRoomId`: 8 characters drawn from the fallback alphabet. -/
def generateRoomId (idx : Nat → Nat) : String :=
  String.mk ((List.range 8).map (fun i => fallbackAlphabet.getD (idx i % 34) 'A'))

/-- The uppercase hexadecimal digits. -/
def hexUpperChars : List Char := "0123456789ABCDEF".toList

/-- One byte rendered as two uppercase hex characters. -/
def byteToHexUpper (b : Nat) : List Char :=
  [hexUpperChars.getD (b / 16 % 16) 'X', hexUpperChars.getD (b % 16) 'X']

/-- `SecurityManager.generateSecureRoomId`:
`crypto.randomBytes(6).toString('hex').toUpperCase()` — six random bytes
hex-encoded, i.e. twelve uppercase hexadecimal characters. -/
def generateSecureRoomId (byte : Nat → Nat) : String :=
  String.mk (((List.range 6).map (fun i => byte i % 256)).flatMap byteToHexUpper)

/-- The initial `videoState` object literal of `createRoom`. -/
def initVideoState : JsObj := fun k =>
  if k = "videoUrl" then some .null
  else if k = "videoType" then some .null
  else if k = "currentTime" then some (.num 0)
  else if k = "isPlaying" then some (.bool false)
  else if k = "title" then some .null
  else none

/-- The argument object of `createRoom`. -/
structure CreateRoomData where
  roomName : Option String
  password : Option String
  privacy : Option String
  maxUsers : Option Nat

/-- `RoomManager.createRoom`.  `hash` is `SecurityManager.hashPassword`
(a salted SHA-256 hex digest); `hasSec` is whether a `SecurityManager` was
passed to the `RoomManager` constructor (the server always passes one). -/
def createRoom (hash : String → String) (hasSec : Bool) (ent : Entropy)
    (d : CreateRoomData) : Room :=
  { id := if hasSec then generateSecureRoomId ent.byte else generateRoomId ent.idx
    name := jsOrStr d.roomName "My Room"
    password :=
      if jsTruthyStr d.password && hasSec then hash (d.password.getD "")
      else jsOrStr d.password ""
    privacy := jsOrStr d.privacy "private"
    maxUsers := jsOrNat d.maxUsers 10
    admin := none
    users := []
    videoState := initVideoState }

/-- `RoomManager.addUser` on an existing room: the first user to join becomes
admin; no validation of the name is performed. `now` models `new Date()`. -/
def addUser (room : Room) (socketId : String) (name : Option String)
    (now : Nat) : User × Room :=
  let user : User :=
    { id := socketId
      name := name
      isAdmin := room.users.length = 0
      joinedAt := now }
  let room' := if user.isAdmin then { room with admin := some socketId } else room
  (user, { room' with users := mapSet room'.users socketId user })

/-- `RoomManager.addUser` including the `if (!this.room) return null` guard. -/
def addUserRM (rm : Option Room) (socketId : String) (name : Option String)
    (now : Nat) : Option User × Option Room :=
  match rm with
  | none => (none, none)
  | some room =>
    let (u, room') := addUser room socketId name now
    (some u, some room')

/-- `RoomManager.removeUser`: deletes the entry, and if the removed socket was
the admin and users remain, promotes the first key of the remaining map
(insertion order), flips that user's `isAdmin`, and returns the promotion. -/
def removeUser (room : Room) (socketId : String) : Option User × Room :=
  let users' := mapDelete room.users socketId
  let room' := { room with users := users' }
  if room.admin = some socketId ∧ 0 < users'.length then
    match users'.head? with
    | some p =>
      let newAdmin := { p.2 with isAdmin := true }
      (some newAdmin,
       { room' with
          admin := some p.1
          users := mapSet users' p.1 newAdmin })
    | none => (none, room')
  else
    (none, room')

/-- `RoomManager.updateVideoState`: `this.room.videoState = {...videoState, ...newState}`.
The argument is `Option JsObj` because `handleClearVideo` passes `null`,
and spreading `null` contributes no properties. -/
def updateVideoState (rm : Option Room) (newState : Option JsObj) : Option Room :=
  match rm with
  | none => none
  | some room =>
    some { room with
            videoState :=
              match newState with
              | some p => objSpread room.videoState p
              | none => room.videoState }

/-! ### SocketHandler -/

/-- Broadcast scope of an emitted event. -/
inductive Scope where
  | toSender
  | toOthers
  | toRoom
  deriving DecidableEq, Repr

/-- The payload fields of `join-room` that the handler reads. -/
structure JoinData where
  password : Option String
  username : Option String

/-- Result delivered to the joining socket by `handleJoinRoom`. -/
inductive JoinResult where
  | errorEvent (msg : String)
  | joined (user : User)
  deriving DecidableEq, Repr

/-- `SocketHandler.handleJoinRoom`.  Note the password gate is
`room.privacy === "private" && room.password !== data.password`: the stored
value (a salted hash when a `SecurityManager` is present) is compared with
the plaintext supplied by the client. -/
def handleJoinRoom (rm : Option Room) (socketId : String) (d : JoinData)
    (now : Nat) : JoinResult × Option Room :=
  match rm with
  | none => (.errorEvent "Room not found", none)
  | some room =>
    if room.privacy = "private" ∧ d.password ≠ some room.password then
      (.errorEvent "Wrong password", some room)
    else if room.maxUsers ≤ room.users.length then
      (.errorEvent "Room is full", some room)
    else
      let (u, room') := addUser room socketId d.username now
      (.joined u, some room')

/-- An emitted socket event (name and broadcast scope). -/
structure Emit where
  event : String
  scope : Scope
  deriving DecidableEq, Repr

/-- `SocketHandler.handleClearVideo`: admin-only; passes `null` to
`updateVideoState` and broadcasts `video-cleared` to the whole room. -/
def handleClearVideo (rm : Option Room) (socketId : String) :
    List Emit × Option Room :=
  match rm with
  | none => ([⟨"error", .toSender⟩], none)
  | some room =>
    if room.admin = some socketId then
      ([⟨"video-cleared", .toRoom⟩], updateVideoState (some room) none)
    else
      ([⟨"error", .toSender⟩], some room)

/-- The chat message object broadcast by `handleChatMessage`
(`io.to(room.id)`, i.e. the entire room). -/
structure ChatMessage where
  user : Option String
  message : String
  isAdmin : Bool
  deriving DecidableEq, Repr

/-- `SocketHandler.handleChatMessage`: silently ignored when no room or the
sender is not a member; otherwise broadcasts `data.message` verbatim --
`SecurityManager.sanitizeInput` is never applied on this path. -/
def handleChatMessage (rm : Option Room) (socketId : String)
    (message : String) : Option ChatMessage :=
  match rm with
  | none => none
  | some room =>
    match mapGet room.users socketId with
    | none => none
    | some u => some { user := u.name, message := message, isAdmin := u.isAdmin }

/-! ### SecurityManager: sanitizeInput and validateJoinRequest -/

/-- The apostrophe character (code point 39). -/
def apos : Char := Char.ofNat 39

/-- The double-quote character (code point 34). -/
def dquote : Char := Char.ofNat 34

/-- `input.replace(/c/g, r)` for a single-character pattern. -/
def replaceAllChar (s : String) (c : Char) (r : String) : String :=
  String.join (s.toList.map (fun a => if a = c then r else String.mk [a]))

/-- `SecurityManager.sanitizeInput`: five global single-character replaces,
in source order. -/
def sanitizeInput (s : String) : String :=
  replaceAllChar
    (replaceAllChar
      (replaceAllChar
        (replaceAllChar
          (replaceAllChar s '<' "&lt;")
          '>' "&gt;")
        dquote "&quot;")
      apos "&#x27;")
    '/' "&#x2F;"

/-- The character class `[A-Z0-9]` of the room-id pattern. -/
def isUpperOrDigit (c : Char) : Bool :=
  ("ABCDEFGHIJKLMNOPQRSTUVWXYZ0123456789".toList).contains c

/-- The regex `/^[A-Z0-9]{6,12}$/` of `validateJoinRequest`. -/
def roomIdPatternOk (s : String) : Bool :=
  6 ≤ s.length && s.length ≤ 12 && s.toList.all isUpperOrDigit

/-- The fields of the join payload that `validateJoinRequest` inspects. -/
structure JoinRequestData where
  roomId : Option String
  username : Option String
  password : Option String

/-- `SecurityManager.validateJoinRequest`: returns the error list; the
request `isValid` iff the list is empty.  (`!data.roomId` and
`!data.username` treat `undefined` and `""` as falsy.) -/
def validateJoinRequestErrors (d : JoinRequestData) : List String :=
  (if ¬ (jsTruthyStr d.roomId && roomIdPatternOk (d.roomId.getD "")) then
      ["Invalid room ID format"] else []) ++
  (if ¬ (jsTruthyStr d.username &&
         2 ≤ (d.username.getD "").length && (d.username.getD "").length ≤ 20) then
      ["Username must be between 2 and 20 characters"] else []) ++
  (if jsTruthyStr d.password && 50 < (d.password.getD "").length then
      ["Password too long"] else [])

/-- `validateJoinRequest(...).isValid`. -/
def validateJoinRequestIsValid (d : JoinRequestData) : Bool :=
  validateJoinRequestErrors d = []

/-! ### RangeStreamer: the `/stream/:roomId/video` route -/

/-- A parsed `Range: bytes=start-stop` header (`stop` absent for
`bytes=start-`). -/
structure RangeSpec where
  first : Nat
  last : Option Nat

/-- The response observed by the client: status, the headers the route sets,
and the bytes actually streamed. -/
structure StreamResponse where
  status : Nat
  contentRange : Option String
  acceptRanges : Option String
  contentLength : Int
  body : List Nat
  deriving DecidableEq, Repr

/-- The `Content-Range` header value built by the route. -/
def contentRangeHeader (first last fileSize : Nat) : String :=
  "bytes " ++ toString first ++ "-" ++ toString last ++ "/" ++ toString fileSize

/-- The range branch of the `/stream/:roomId/video` route.  `file` is the
byte content of `videoState.localPath`.  The code sets `end` to
`fileSize - 1` only when absent (no clamping of an explicit `end`) and
headers use `chunksize = end - start + 1`, while `fs.createReadStream`
streams the inclusive range truncated at end-of-file. -/
def streamVideo (file : List Nat) (range : Option RangeSpec) : StreamResponse :=
  let fileSize := file.length
  match range with
  | some r =>
    let first := r.first
    let last := r.last.getD (fileSize - 1)
    let chunksize : Int := (last : Int) - (first : Int) + 1
    { status := 206
      contentRange := some (contentRangeHeader first last fileSize)
      acceptRanges := some "bytes"
      contentLength := chunksize
      body := (file.drop first).take (last + 1 - first) }
  | none =>
    { status := 200
      contentRange := none
      acceptRanges := none
      contentLength := (fileSize : Int)
      body := file }

/-- The full route including the room-id and file guards: 404 when no room,
the id mismatches, or no local file is available. -/
def streamVideoRoute (rm : Option Room) (roomId : String)
    (localFile : Option (List Nat)) (range : Option RangeSpec) : StreamResponse :=
  match rm with
  | none => { status := 404, contentRange := none, acceptRanges := none,
              contentLength := 0, body := [] }
  | some room =>
    if room.id = roomId then
      match localFile with
      | some file => streamVideo file range
      | none => { status := 404, contentRange := none, acceptRanges := none,
                  contentLength := 0, body := [] }
    else
      { status := 404, contentRange := none, acceptRanges := none,
        contentLength := 0, body := [] }

/-! ### MediaResolver: format selection in `processWithYtDlp` -/

/-- One entry of the resolver's `formats` list.  Fields are optional because
the JavaScript reads them off a parsed JSON object (`undefined` when
absent); note `undefined !== 'none'` is true. -/
structure YtFormat where
  vcodec : Option String
  acodec : Option String
  ext : Option String
  url : Option String
  deriving DecidableEq, Repr

/-- `f.vcodec !== 'none' && f.acodec !== 'none' && f.ext === 'mp4'`. -/
def isFullMp4 (f : YtFormat) : Bool :=
  f.vcodec != some "none" && f.acodec != some "none" && f.ext == some "mp4"

/-- `f.vcodec !== 'none'`. -/
def hasVideoCodec (f : YtFormat) : Bool :=
  f.vcodec != some "none"

/-- The `bestFormat` selection: first full mp4 format, else first format
with a video codec, else none. -/
def pickBestFormat (formats : List YtFormat) : Option YtFormat :=
  match formats.find? isFullMp4 with
  | some f => some f
  | none => formats.find? hasVideoCodec

/-- The fields of the parsed resolver payload that the handler reads. -/
structure VideoInfo where
  url : Option String
  webpageUrl : Option String
  title : Option String
  formats : Option (List YtFormat)
  deriving DecidableEq, Repr

/-- JavaScript `a || b` on optional strings. -/
def jsOrOpt (a b : Option String) : Option String :=
  if jsTruthyStr a then a else b

/-- The `streamUrl` computed from a successfully parsed payload:
`videoInfo.url || videoInfo.webpage_url`, overridden by
`bestFormat.url` when a best format with a truthy `url` exists. -/
def computeStreamUrl (info : VideoInfo) : Option String :=
  let base := jsOrOpt info.url info.webpageUrl
  match info.formats with
  | none => base
  | some formats =>
    match pickBestFormat formats with
    | some bf => if jsTruthyStr bf.url then bf.url else base
    | none => base

/-- Outcome of `processWithYtDlp` once the payload parsed: the handler
always updates the video state and emits `video-loaded`; there is no
NoPlayableFormat failure path. -/
inductive YtOutcome where
  | loaded (videoUrl : Option String) (title : String)
  deriving DecidableEq, Repr

/-- The handler body after `JSON.parse` succeeds. -/
def processParsedInfo (info : VideoInfo) (dataTitle : Option String) : YtOutcome :=
  .loaded (computeStreamUrl info)
    (jsOrStr info.title (jsOrStr dataTitle "Video"))

/-! ### Concrete fixtures -/

/-- Deterministic entropy for concrete runs. -/
def entZero : Entropy := ⟨fun _ => 0, fun _ => 0⟩

/-- A `createRoom` call with every payload field absent. -/
def dataDefault : CreateRoomData := ⟨none, none, none, none⟩

/-- A room created through the server path (security manager present)
whose creator `"S"` has joined, mirroring `handleCreateRoom`. -/
def demoRoom : Room :=
  (addUser (createRoom (fun s => s) true entZero dataDefault) "S" (some "Ann") 0).2

/-! ### Map helper lemmas -/

/-- The key list of a user map. -/
def mapKeys (m : UserMap) : List String := m.map (fun p => p.1)

theorem mapGet_eq_none_iff (m : UserMap) (k : String) :
    mapGet m k = none ↔ ∀ p ∈ m, p.1 ≠ k := by
  simp [mapGet, List.find?_eq_none]

theorem not_mem_keys_of_get_none {m : UserMap} {k : String}
    (h : mapGet m k = none) : k ∉ mapKeys m := by
  rw [mapGet_eq_none_iff] at h
  simp only [mapKeys, List.mem_map]
  rintro ⟨p, hp, hk⟩
  exact h p hp hk

theorem mapSet_of_get_none {m : UserMap} {k : String} (v : User)
    (h : mapGet m k = none) : mapSet m k v = m ++ [(k, v)] := by
  unfold mapSet
  have hf : m.find? (fun p => p.1 = k) = none := by
    unfold mapGet at h
    cases hf : m.find? (fun p => p.1 = k) with
    | none => rfl
    | some p => rw [hf] at h; simp at h
  rw [hf]
  simp

theorem entry_eq_of_nodup {m : UserMap} (hn : (mapKeys m).Nodup)
    {p q : String × User} (hp : p ∈ m) (hq : q ∈ m) (hk : p.1 = q.1) :
    p = q := by
  induction m with
  | nil => cases hp
  | cons a t ih =>
    simp only [mapKeys, List.map_cons, List.nodup_cons] at hn
    rcases List.mem_cons.mp hp with rfl | hp' <;>
      rcases List.mem_cons.mp hq with rfl | hq'
    · rfl
    · exact absurd (hk ▸ List.mem_map_of_mem (fun x => x.1) hq') hn.1
    · exact absurd (hk ▸ List.mem_map_of_mem (fun x => x.1) hp') hn.1
    · exact ih hn.2 hp' hq'

theorem mapGet_of_mem_nodup {m : UserMap} (hn : (mapKeys m).Nodup)
    {a : String} {u : User} (hm : (a, u) ∈ m) : mapGet m a = some u := by
  induction m with
  | nil => cases hm
  | cons p t ih =>
    simp only [mapKeys, List.map_cons, List.nodup_cons] at hn
    rcases List.mem_cons.mp hm with rfl | hm'
    · simp [mapGet]
    · have hpa : p.1 ≠ a := by
        intro he
        exact hn.1 (he ▸ List.mem_map_of_mem (fun x => x.1) hm')
      unfold mapGet
      rw [List.find?_cons_of_neg _ (by simp [hpa])]
      exact ih hn.2 hm'

theorem mem_of_mem_mapDelete {m : UserMap} {k : String} {p : String × User}
    (h : p ∈ mapDelete m k) : p ∈ m ∧ p.1 ≠ k := by
  have := List.mem_filter.mp h
  exact ⟨this.1, by simpa using this.2⟩

theorem mem_mapDelete_of_mem {m : UserMap} {k : String} {p : String × User}
    (hp : p ∈ m) (hk : p.1 ≠ k) : p ∈ mapDelete m k :=
  List.mem_filter.mpr ⟨hp, by simpa using hk⟩

theorem mapKeys_mapDelete_sublist (m : UserMap) (k : String) :
    List.Sublist (mapKeys (mapDelete m k)) (mapKeys m) := by
  unfold mapKeys mapDelete
  exact (List.filter_sublist m).map (fun p => p.1)

/-! ### Claim C5: shallow merge of video state -/

/-- C5: `updateVideoState` on an existing room performs a shallow merge:
a field present in the argument takes the argument's value and a field
absent from the argument keeps its prior value. -/
theorem c5_shallow_merge (room : Room) (patch : JsObj) (k : String) :
    (∀ v, patch k = some v →
      ((updateVideoState (some room) (some patch)).getD room).videoState k
        = some v) ∧
    (patch k = none →
      ((updateVideoState (some room) (some patch)).getD room).videoState k
        = room.videoState k) := by
  constructor
  · intro v hv
    simp [updateVideoState, objSpread, hv]
  · intro hv
    simp [updateVideoState, objSpread, hv]

/-- The prior video state of the spec's worked example:
`{isPlaying: true, currentTime: 10, title: "X"}`. -/
def c5prior : JsObj := fun k =>
  if k = "isPlaying" then some (.bool true)
  else if k = "currentTime" then some (.num 10)
  else if k = "title" then some (.str "X")
  else none

/-- The partial update `{currentTime: 42}` of the spec's worked example. -/
def c5patch : JsObj := fun k =>
  if k = "currentTime" then some (.num 42) else none

/-- A room holding the example's prior video state. -/
def c5room : Room := { demoRoom with videoState := c5prior }

/-- Witness for C5: the spec's worked example, evaluated. -/
theorem c5_shallow_merge_witness :
    ((updateVideoState (some c5room) (some c5patch)).getD c5room).videoState
        "currentTime" = some (.num 42) ∧
    ((updateVideoState (some c5room) (some c5patch)).getD c5room).videoState
        "isPlaying" = some (.bool true) ∧
    ((updateVideoState (some c5room) (some c5patch)).getD c5room).videoState
        "title" = some (.str "X") :=
  ⟨(c5_shallow_merge c5room c5patch "currentTime").1 (.num 42) rfl,
   ((c5_shallow_merge c5room c5patch "isPlaying").2 rfl).trans rfl,
   ((c5_shallow_merge c5room c5patch "title").2 rfl).trans rfl⟩

/-! ### Claim C7: chat messages are broadcast unescaped -/

/-- C7 (code bug): a chat message containing HTML metacharacters from a room
member is broadcast verbatim — `handleChatMessage` never calls
`SecurityManager.sanitizeInput`, whose output on the same string differs. -/
theorem c7_chat_unsanitized :
    handleChatMessage (some demoRoom) "S" "<script>alert(1)</script>" =
      some { user := some "Ann",
             message := "<script>alert(1)</script>",
             isAdmin := true } ∧
    sanitizeInput "<script>alert(1)</script>" =
      "&lt;script&gt;alert(1)&lt;&#x2F;script&gt;" ∧
    "<script>alert(1)</script>" ≠ sanitizeInput "<script>alert(1)</script>" := by
  refine ⟨by decide, by decide, by decide⟩

/-! ### Claim C8: addUser does not enforce the 2–20 character name rule -/

/-- C8 (code bug): `addUser` with a one-character name succeeds and inserts
the user, even though the code's own `validateJoinRequest` (never called on
this path) rejects that name. -/
theorem c8_addUser_no_validation :
    ("A").length < 2 ∧
    validateJoinRequestIsValid ⟨some "ABC123", some "A", none⟩ = false ∧
    (addUserRM (some (createRoom (fun s => s) true entZero dataDefault))
        "s1" (some "A") 5).1 =
      some { id := "s1", name := some "A", isAdmin := true, joinedAt := 5 } ∧
    mapGet ((addUserRM (some (createRoom (fun s => s) true entZero dataDefault))
        "s1" (some "A") 5).2.getD demoRoom).users "s1" =
      some { id := "s1", name := some "A", isAdmin := true, joinedAt := 5 } := by
  refine ⟨by decide, by decide, by decide, by decide⟩

/-! ### Claim C9: clear-video broadcasts but leaves the video state unchanged -/

/-- C9: a clear-video command from the admin broadcasts `video-cleared` to the
entire room while every field of `videoState` is unchanged, because the
handler passes `null` and the spread of `null` is the identity. -/
theorem c9_clear_video (room : Room) (socketId : String)
    (h : room.admin = some socketId) :
    (handleClearVideo (some room) socketId).1 = [⟨"video-cleared", .toRoom⟩] ∧
    ∃ room', (handleClearVideo (some room) socketId).2 = some room' ∧
      ∀ k, room'.videoState k = room.videoState k := by
  simp only [handleClearVideo]
  rw [if_pos h]
  exact ⟨rfl, _, rfl, fun k => rfl⟩

/-- Witness for C9 at a concrete room whose admin is `"S"`. -/
theorem c9_clear_video_witness :
    demoRoom.admin = some "S" ∧
    ((handleClearVideo (some demoRoom) "S").1 = [⟨"video-cleared", .toRoom⟩] ∧
     ∃ room', (handleClearVideo (some demoRoom) "S").2 = some room' ∧
       ∀ k, room'.videoState k = demoRoom.videoState k) :=
  ⟨by decide, c9_clear_video demoRoom "S" (by decide)⟩

/-! ### Claim C2: room id length and alphabet -/

theorem flatMap_byteToHexUpper_length (bs : List Nat) :
    (bs.flatMap byteToHexUpper).length = 2 * bs.length := by
  induction bs with
  | nil => rfl
  | cons b t ih =>
    simp only [List.flatMap_cons, List.length_append, ih, byteToHexUpper,
      List.length_cons, List.length_nil, List.length_cons]
    omega

theorem hexUpperChars_getD_mem : ∀ n < 16, hexUpperChars.getD n 'X' ∈ hexUpperChars := by
  decide

theorem fallbackAlphabet_getD_mem :
    ∀ n < 34, fallbackAlphabet.getD n 'A' ∈ fallbackAlphabet := by
  decide

/-- C2 (counterexample): on the server path (a `SecurityManager` is always
passed to `RoomManager`), the generated room id is not 8 characters, and it
contains `'0'`, which the restricted generation alphabet excludes. -/
theorem c2_room_id_counterexample :
    (createRoom (fun s => s) true entZero dataDefault).id = "000000000000" ∧
    (createRoom (fun s => s) true entZero dataDefault).id.length ≠ 8 ∧
    '0' ∈ (createRoom (fun s => s) true entZero dataDefault).id.toList ∧
    '0' ∉ fallbackAlphabet := by
  refine ⟨by decide, by decide, by decide, by decide⟩

/-- C2 (amended): with a `SecurityManager` (the deployed configuration) the
room id is exactly 12 uppercase hexadecimal characters; only the fallback
generator used without a `SecurityManager` yields exactly 8 characters from
the restricted alphabet `ABCDEFGHIJKLMNPQRSTUVWXYZ123456789`. -/
theorem c2_room_id_amended (hash : String → String) (ent : Entropy)
    (d : CreateRoomData) :
    ((createRoom hash true ent d).id.length = 12 ∧
      ∀ c ∈ (createRoom hash true ent d).id.toList, c ∈ hexUpperChars) ∧
    ((createRoom hash false ent d).id.length = 8 ∧
      ∀ c ∈ (createRoom hash false ent d).id.toList, c ∈ fallbackAlphabet) := by
  constructor
  · constructor
    · show (generateSecureRoomId ent.byte).length = 12
      unfold generateSecureRoomId
      show (((List.range 6).map (fun i => ent.byte i % 256)).flatMap
        byteToHexUpper).length = 12
      rw [flatMap_byteToHexUpper_length]
      simp
    · intro c hc
      have hc' : c ∈ ((List.range 6).map (fun i => ent.byte i % 256)).flatMap
          byteToHexUpper := hc
      rcases List.mem_flatMap.mp hc' with ⟨b, _, hcb⟩
      unfold byteToHexUpper at hcb
      rcases List.mem_cons.mp hcb with rfl | hcb'
      · exact hexUpperChars_getD_mem _ (Nat.mod_lt _ (by omega))
      · rcases List.mem_cons.mp hcb' with rfl | h0
        · exact hexUpperChars_getD_mem _ (Nat.mod_lt _ (by omega))
        · cases h0
  · constructor
    · show (generateRoomId ent.idx).length = 8
      unfold generateRoomId
      show ((List.range 8).map
        (fun i => fallbackAlphabet.getD (ent.idx i % 34) 'A')).length = 8
      simp
    · intro c hc
      have hc' : c ∈ (List.range 8).map
          (fun i => fallbackAlphabet.getD (ent.idx i % 34) 'A') := hc
      rcases List.mem_map.mp hc' with ⟨i, _, rfl⟩
      exact fallbackAlphabet_getD_mem _ (Nat.mod_lt _ (by omega))

/-- Witness for C2 (amended) at concrete entropy. -/
theorem c2_room_id_amended_witness :
    (createRoom (fun s => s) true entZero dataDefault).id.length = 12 ∧
    '0' ∈ (createRoom (fun s => s) true entZero dataDefault).id.toList ∧
    '0' ∈ hexUpperChars :=
  ⟨(c2_room_id_amended (fun s => s) entZero dataDefault).1.1,
   by decide,
   (c2_room_id_amended (fun s => s) entZero dataDefault).1.2 '0' (by decide)⟩

/-! ### Claim C4: range requests -/

/-- C4 (counterexample): `Range: bytes=0-1999` on a 1000-byte file is
answered 206 with `Content-Length: 2000`, but the streamed body ends at
end-of-file after 1000 bytes — the response body does not have
`end - start + 1` bytes. -/
theorem c4_range_counterexample :
    (streamVideo (List.replicate 1000 0) (some ⟨0, some 1999⟩)).status = 206 ∧
    (streamVideo (List.replicate 1000 0) (some ⟨0, some 1999⟩)).contentLength
      = 2000 ∧
    (streamVideo (List.replicate 1000 0) (some ⟨0, some 1999⟩)).body.length
      = 1000 ∧
    (1000 : Int) ≠ 2000 := by
  refine ⟨rfl, by decide, ?_, by decide⟩
  simp only [streamVideo, List.length_take, List.length_drop,
    List.length_replicate, Option.getD_some]
  omega

/-- C4 (amended): for `bytes=start-end` with `start ≤ end < fileSize` the
response is 206 with `Content-Range: bytes start-end/fileSize`,
`Accept-Ranges: bytes`, `Content-Length: end-start+1`, and a body of exactly
`end-start+1` bytes; an omitted `end` behaves as `fileSize-1`.  (For an
explicit `end ≥ fileSize` the headers still advertise `end-start+1` but the
body is truncated at end-of-file, see the counterexample.) -/
theorem c4_range_amended (file : List Nat) (a b : Nat)
    (hab : a ≤ b) (hb : b < file.length) :
    (streamVideo file (some ⟨a, some b⟩)).status = 206 ∧
    (streamVideo file (some ⟨a, some b⟩)).contentRange
      = some (contentRangeHeader a b file.length) ∧
    (streamVideo file (some ⟨a, some b⟩)).acceptRanges = some "bytes" ∧
    (streamVideo file (some ⟨a, some b⟩)).contentLength
      = ((b - a + 1 : Nat) : Int) ∧
    (streamVideo file (some ⟨a, some b⟩)).body.length = b - a + 1 ∧
    streamVideo file (some ⟨a, none⟩)
      = streamVideo file (some ⟨a, some (file.length - 1)⟩) := by
  refine ⟨rfl, rfl, rfl, ?_, ?_, rfl⟩
  · show ((b : Int) - (a : Int) + 1) = ((b - a + 1 : Nat) : Int)
    omega
  · simp only [streamVideo, List.length_take, List.length_drop,
      Option.getD_some]
    omega

/-- Witness for C4 (amended): the spec's `bytes=0-99` on a 1000-byte file. -/
theorem c4_range_amended_witness :
    (0 : Nat) ≤ 99 ∧ (99 : Nat) < (List.replicate 1000 (0 : Nat)).length ∧
    (streamVideo (List.replicate 1000 0) (some ⟨0, some 99⟩)).status = 206 ∧
    (streamVideo (List.replicate 1000 0) (some ⟨0, some 99⟩)).contentRange
      = some "bytes 0-99/1000" ∧
    (streamVideo (List.replicate 1000 0) (some ⟨0, some 99⟩)).contentLength
      = 100 ∧
    (streamVideo (List.replicate 1000 0) (some ⟨0, some 99⟩)).body.length
      = 100 := by
  have hlen : (List.replicate 1000 (0 : Nat)).length = 1000 := by
    rw [List.length_replicate]
  have h := c4_range_amended (List.replicate 1000 0) 0 99 (by omega)
    (by rw [hlen]; omega)
  refine ⟨by omega, by rw [hlen]; omega, h.1, ?_, ?_, ?_⟩
  · rw [h.2.1, hlen]; decide
  · rw [h.2.2.2.1]; decide
  · rw [h.2.2.2.2.1]

/-! ### Claim C6: resolver format selection -/

/-- A parsed payload whose only format is audio-only but whose top-level
`url` is present. -/
def c6infoNoVideo : VideoInfo :=
  { url := some "https://example.com/direct.mp4"
    webpageUrl := none
    title := some "T"
    formats := some [{ vcodec := some "none", acodec := some "mp4a.40.2",
                       ext := some "m4a",
                       url := some "https://example.com/audio.m4a" }] }

/-- C6 (counterexample): when no format carries a video codec the load does
not fail — the handler still produces a stream URL (the payload's top-level
`url`) and reports the video as loaded. -/
theorem c6_format_counterexample :
    (∀ f ∈ c6infoNoVideo.formats.getD [], hasVideoCodec f = false) ∧
    processParsedInfo c6infoNoVideo none =
      .loaded (some "https://example.com/direct.mp4") "T" := by
  refine ⟨by decide, by decide⟩

/-- C6 (amended): the selected format is the first with both codecs and the
mp4 container, else the first with a video codec; when no format has a
video codec the handler falls back to the payload's top-level
`url || webpage_url` as the stream URL and still reports the video as
loaded — there is no NoPlayableFormat failure. -/
theorem c6_format_amended (info : VideoInfo) (fmts : List YtFormat)
    (h : info.formats = some fmts) :
    (∀ f, fmts.find? isFullMp4 = some f → jsTruthyStr f.url = true →
        computeStreamUrl info = f.url) ∧
    (fmts.find? isFullMp4 = none →
      ∀ f, fmts.find? hasVideoCodec = some f → jsTruthyStr f.url = true →
        computeStreamUrl info = f.url) ∧
    ((∀ f ∈ fmts, hasVideoCodec f = false) →
        computeStreamUrl info = jsOrOpt info.url info.webpageUrl ∧
        processParsedInfo info none =
          .loaded (jsOrOpt info.url info.webpageUrl)
            (jsOrStr info.title "Video")) := by
  refine ⟨?_, ?_, ?_⟩
  · intro f hf hu
    simp [computeStreamUrl, h, pickBestFormat, hf, hu]
  · intro hnone f hf hu
    simp [computeStreamUrl, h, pickBestFormat, hnone, hf, hu]
  · intro hall
    have h1 : fmts.find? hasVideoCodec = none := by
      rw [List.find?_eq_none]
      intro x hx hP
      rw [hall x hx] at hP
      cases hP
    have h2 : fmts.find? isFullMp4 = none := by
      rw [List.find?_eq_none]
      intro x hx hP
      have hv := hall x hx
      simp only [isFullMp4, Bool.and_eq_true] at hP
      simp only [hasVideoCodec] at hv
      rw [hv] at hP
      simp at hP
    constructor
    · simp [computeStreamUrl, h, pickBestFormat, h1, h2]
    · simp [processParsedInfo, computeStreamUrl, h, pickBestFormat, h1, h2,
        jsOrStr]

/-- A payload with a full (video+audio, mp4) format. -/
def c6goodFormat : YtFormat :=
  { vcodec := some "avc1.64001f", acodec := some "mp4a.40.2",
    ext := some "mp4", url := some "https://example.com/full.mp4" }

/-- A parsed payload carrying only `c6goodFormat`. -/
def c6infoGood : VideoInfo :=
  { url := none, webpageUrl := none, title := some "T",
    formats := some [c6goodFormat] }

/-- Witness for C6 (amended): the full mp4 format wins. -/
theorem c6_format_amended_witness :
    c6infoGood.formats = some [c6goodFormat] ∧
    [c6goodFormat].find? isFullMp4 = some c6goodFormat ∧
    jsTruthyStr c6goodFormat.url = true ∧
    computeStreamUrl c6infoGood = some "https://example.com/full.mp4" := by
  refine ⟨rfl, by decide, by decide, ?_⟩
  have h := (c6_format_amended c6infoGood [c6goodFormat] rfl).1 c6goodFormat
    (by decide) (by decide)
  exact h.trans (by decide)

/-! ### Claim C1: join-room password check -/

/-- C1 (code bug): `handleJoinRoom` compares the supplied plaintext with the
stored salted hash (`room.password !== data.password`), so joining a private
room with the very password given at creation is rejected with
`Wrong password` and the room is left unchanged --
`SecurityManager.verifyPassword` is never called.  The only assumption on
the hash is that a SHA-256 hex digest has 64 characters. -/
theorem c1_join_password_code_bug (hash : String → String)
    (h : (hash "pw").length = 64) :
    handleJoinRoom
        (some (createRoom hash true entZero ⟨none, some "pw", none, none⟩))
        "s2" ⟨some "pw", some "Bob"⟩ 1 =
      (.errorEvent "Wrong password",
       some (createRoom hash true entZero ⟨none, some "pw", none, none⟩)) := by
  have hpw : (createRoom hash true entZero ⟨none, some "pw", none, none⟩).password
      = hash "pw" := rfl
  have hne : ("pw" : String) ≠ hash "pw" := fun he => by
    rw [← he] at h
    exact absurd h (by decide)
  have hcond :
      (createRoom hash true entZero ⟨none, some "pw", none, none⟩).privacy
        = "private" ∧
      (some "pw" : Option String) ≠
        some (createRoom hash true entZero ⟨none, some "pw", none, none⟩).password := by
    refine ⟨rfl, ?_⟩
    rw [hpw]
    intro hc
    exact hne (Option.some.inj hc)
  simp only [handleJoinRoom]
  rw [if_pos hcond]

/-- A stand-in digest function producing 64-character outputs. -/
def hash64 : String → String := fun _ => String.mk (List.replicate 64 'a')

/-- Witness for C1 at a concrete 64-character digest function. -/
theorem c1_join_password_code_bug_witness :
    (hash64 "pw").length = 64 ∧
    handleJoinRoom
        (some (createRoom hash64 true entZero ⟨none, some "pw", none, none⟩))
        "s2" ⟨some "pw", some "Bob"⟩ 1 =
      (.errorEvent "Wrong password",
       some (createRoom hash64 true entZero ⟨none, some "pw", none, none⟩)) :=
  ⟨by decide, c1_join_password_code_bug hash64 (by decide)⟩

/-! ### Reachable room states: membership operation sequences -/

/-- A membership operation on the live room (`addUser` on join/create,
`removeUser` on disconnect). -/
inductive RoomOp where
  | addU (socketId : String) (name : Option String) (now : Nat)
  | removeU (socketId : String)

/-- One operation applied to the room. -/
def applyOp (room : Room) : RoomOp → Room
  | .addU s n t => (addUser room s n t).2
  | .removeU s => (removeUser room s).2

/-- A sequence of operations applied in order. -/
def applyOps (room : Room) (ops : List RoomOp) : Room :=
  ops.foldl applyOp room

/-- A run is fresh when every `addUser` uses a connection id not currently
present in the users map (each connection joins at most once while a
member). -/
def freshRun (room : Room) : List RoomOp → Bool
  | [] => true
  | op :: rest =>
    (match op with
     | .addU s _ _ => (mapGet room.users s).isNone
     | .removeU _ => true) && freshRun (applyOp room op) rest

/-- Join timestamps are nondecreasing along the run. -/
def monoRun : Nat → List RoomOp → Bool
  | _, [] => true
  | t0, .addU _ _ t :: rest => decide (t0 ≤ t) && monoRun t rest
  | t0, .removeU _ :: rest => monoRun t0 rest

/-- The state invariant maintained by fresh runs: keys are distinct, every
user's `id` is its map key, and a non-empty room has a unique `isAdmin`
entry that the `admin` field names. -/
def roomInv (room : Room) : Prop :=
  (mapKeys room.users).Nodup ∧
  (∀ p ∈ room.users, p.2.id = p.1) ∧
  (room.users ≠ [] → ∃ a u, room.admin = some a ∧ (a, u) ∈ room.users ∧
    u.isAdmin = true ∧ ∀ p ∈ room.users, p.2.isAdmin = true → p = (a, u))

theorem roomInv_of_users_nil {room : Room} (h : room.users = []) :
    roomInv room := by
  refine ⟨?_, ?_, fun hne => absurd h hne⟩
  · simp [mapKeys, h]
  · simp [h]

/-! Structural lemmas about `addUser` and `removeUser`. -/

theorem addUser_fst (room : Room) (s : String) (n : Option String) (t : Nat) :
    (addUser room s n t).1
      = User.mk s n (decide (room.users.length = 0)) t := rfl

theorem addUser_users_fresh {room : Room} {s : String}
    (hf : mapGet room.users s = none) (n : Option String) (t : Nat) :
    (addUser room s n t).2.users
      = room.users ++ [(s, User.mk s n (decide (room.users.length = 0)) t)] := by
  by_cases h0 : room.users.length = 0 <;>
    simp [addUser, h0, mapSet_of_get_none _ hf]

theorem addUser_admin (room : Room) (s : String) (n : Option String) (t : Nat) :
    (addUser room s n t).2.admin
      = if room.users.length = 0 then some s else room.admin := by
  by_cases h0 : room.users.length = 0 <;> simp [addUser, h0]

theorem removeUser_stale {room : Room} {s : String}
    (hc : ¬(room.admin = some s ∧ 0 < (mapDelete room.users s).length)) :
    (removeUser room s).1 = none ∧
    (removeUser room s).2 = { room with users := mapDelete room.users s } := by
  constructor <;> · simp only [removeUser]; rw [if_neg hc]

theorem removeUser_promotes {room : Room} {s : String} {p : String × User}
    {rest : UserMap}
    (hadm_s : room.admin = some s)
    (hcons : mapDelete room.users s = p :: rest) :
    (removeUser room s).1 = some { p.2 with isAdmin := true } ∧
    (removeUser room s).2.admin = some p.1 ∧
    (removeUser room s).2.users
      = (p :: rest).map (fun q =>
          if q.1 = p.1 then (p.1, { p.2 with isAdmin := true }) else q) := by
  have hlen : 0 < (mapDelete room.users s).length := by rw [hcons]; simp
  have hkey : ((p :: rest).find? (fun q => q.1 = p.1)).isSome = true := by
    simp [List.find?_cons]
  have hmapset :
      mapSet (p :: rest) p.1 ({ p.2 with isAdmin := true })
        = (p :: rest).map (fun q =>
            if q.1 = p.1 then (p.1, { p.2 with isAdmin := true }) else q) := by
    unfold mapSet
    rw [if_pos hkey]
  refine ⟨?_, ?_, ?_⟩ <;>
    · simp only [removeUser]
      rw [if_pos ⟨hadm_s, hlen⟩, hcons]
      simp [hmapset]

/-! Invariant preservation. -/

theorem roomInv_addUser {room : Room} {s : String}
    (h : roomInv room) (hf : mapGet room.users s = none)
    (n : Option String) (t : Nat) :
    roomInv (addUser room s n t).2 := by
  obtain ⟨hn, hid, hadm⟩ := h
  have hs : s ∉ mapKeys room.users := not_mem_keys_of_get_none hf
  by_cases h0 : room.users.length = 0
  · have hnil : room.users = [] := List.length_eq_zero.mp h0
    have husers : (addUser room s n t).2.users
        = [(s, User.mk s n true t)] := by
      rw [addUser_users_fresh hf, hnil]
      simp
    have hadmin : (addUser room s n t).2.admin = some s := by
      rw [addUser_admin, if_pos h0]
    refine ⟨?_, ?_, fun _ => ?_⟩
    · rw [husers]; simp [mapKeys]
    · rw [husers]; simp
    · refine ⟨s, User.mk s n true t, hadmin, ?_, rfl, ?_⟩
      · rw [husers]; simp
      · intro q hq _
        rw [husers] at hq
        simpa using hq
  · have hne : room.users ≠ [] := fun he => h0 (by rw [he]; rfl)
    obtain ⟨a, u, ha, hmem, huAdm, huniq⟩ := hadm hne
    have husers : (addUser room s n t).2.users
        = room.users ++ [(s, User.mk s n false t)] := by
      rw [addUser_users_fresh hf]
      simp [h0]
    have hadmin : (addUser room s n t).2.admin = room.admin := by
      rw [addUser_admin, if_neg h0]
    refine ⟨?_, ?_, fun _ => ?_⟩
    · rw [husers]
      have hkeys : mapKeys (room.users ++ [(s, User.mk s n false t)])
          = mapKeys room.users ++ [s] := by
        simp [mapKeys]
      rw [hkeys, List.nodup_append]
      exact ⟨hn, List.nodup_singleton s, by simpa using hs⟩
    · intro q hq
      rw [husers] at hq
      rcases List.mem_append.mp hq with hq' | hq'
      · exact hid q hq'
      · have : q = (s, User.mk s n false t) := by simpa using hq'
        rw [this]
    · refine ⟨a, u, hadmin ▸ ha, ?_, huAdm, ?_⟩
      · rw [husers]; exact List.mem_append_left _ hmem
      · intro q hq hqAdm
        rw [husers] at hq
        rcases List.mem_append.mp hq with hq' | hq'
        · exact huniq q hq' hqAdm
        · exfalso
          have : q = (s, User.mk s n false t) := by simpa using hq'
          rw [this] at hqAdm
          simp at hqAdm

theorem roomInv_removeUser {room : Room} (h : roomInv room) (s : String) :
    roomInv (removeUser room s).2 := by
  obtain ⟨hn, hid, hadm⟩ := h
  have hn' : (mapKeys (mapDelete room.users s)).Nodup :=
    hn.sublist (mapKeys_mapDelete_sublist _ _)
  by_cases hc : room.admin = some s ∧ 0 < (mapDelete room.users s).length
  · obtain ⟨hadm_s, hlen⟩ := hc
    obtain ⟨p, rest, hcons⟩ : ∃ p rest, mapDelete room.users s = p :: rest := by
      cases hu : mapDelete room.users s with
      | nil => rw [hu] at hlen; cases hlen
      | cons x tl => exact ⟨x, tl, rfl⟩
    obtain ⟨-, hres_admin, hres_users⟩ := removeUser_promotes hadm_s hcons
    have hp_mem : p ∈ mapDelete room.users s := by
      rw [hcons]; exact List.mem_cons_self _ _
    have hp_mem0 : p ∈ room.users := (mem_of_mem_mapDelete hp_mem).1
    have hkeys_eq : mapKeys ((removeUser room s).2.users)
        = mapKeys (p :: rest) := by
      rw [hres_users]
      unfold mapKeys
      rw [List.map_map]
      apply List.map_congr_left
      intro q _
      by_cases hq1 : q.1 = p.1 <;> simp [hq1]
    refine ⟨?_, ?_, fun _ => ?_⟩
    · rw [hkeys_eq, ← hcons]; exact hn'
    · intro q hq
      rw [hres_users] at hq
      rcases List.mem_map.mp hq with ⟨q0, hq0, rfl⟩
      by_cases h1 : q0.1 = p.1
      · have hq0p : q0 = p := by
          apply entry_eq_of_nodup (hcons ▸ hn') (hcons ▸ hq0) hp_mem h1
        simp only [h1, if_pos]
        show ({ p.2 with isAdmin := true } : User).id = p.1
        exact hid p hp_mem0
      · simp only [h1, if_neg, ite_false]
        exact hid q0 (mem_of_mem_mapDelete (hcons ▸ hq0)).1
    · refine ⟨p.1, { p.2 with isAdmin := true }, hres_admin, ?_, rfl, ?_⟩
      · rw [hres_users]
        simp
      · intro q hq hqAdm
        rw [hres_users] at hq
        rcases List.mem_map.mp hq with ⟨q0, hq0, rfl⟩
        by_cases h1 : q0.1 = p.1
        · simp [h1]
        · exfalso
          simp only [h1, if_neg, ite_false] at hqAdm
          have hq0mem := (mem_of_mem_mapDelete (hcons ▸ hq0)).1
          have hq0ne := (mem_of_mem_mapDelete (hcons ▸ hq0)).2
          have hne : room.users ≠ [] := by
            intro he; rw [he] at hq0mem; cases hq0mem
          obtain ⟨a, u, ha, hmem, huAdm, huniq⟩ := hadm hne
          have has : a = s := by
            rw [hadm_s] at ha
            exact (Option.some.inj ha).symm
          have hq0eq := huniq q0 hq0mem hqAdm
          apply hq0ne
          rw [hq0eq, has]
  · obtain ⟨-, hres⟩ := removeUser_stale hc
    rw [hres]
    refine ⟨hn', ?_, ?_⟩
    · intro q hq
      exact hid q (mem_of_mem_mapDelete hq).1
    · intro hne'
      have hne : room.users ≠ [] := by
        intro he
        apply hne'
        show mapDelete room.users s = []
        rw [he]
        rfl
      obtain ⟨a, u, ha, hmem, huAdm, huniq⟩ := hadm hne
      have has : a ≠ s := by
        intro he
        apply hc
        refine ⟨by rw [ha, he], ?_⟩
        cases hu : mapDelete room.users s with
        | nil => exact absurd hu hne'
        | cons x tl => simp
      refine ⟨a, u, ha, mem_mapDelete_of_mem hmem has, huAdm, ?_⟩
      intro q hq hqAdm
      exact huniq q (mem_of_mem_mapDelete hq).1 hqAdm

theorem freshRun_roomInv {ops : List RoomOp} :
    ∀ {room : Room}, roomInv room → freshRun room ops = true →
      roomInv (applyOps room ops) := by
  induction ops with
  | nil => intro room h _; exact h
  | cons op rest ih =>
    intro room h hf
    simp only [freshRun, Bool.and_eq_true] at hf
    have h1 : roomInv (applyOp room op) := by
      cases op with
      | addU s n t =>
        have hfr : mapGet room.users s = none :=
          Option.isNone_iff_eq_none.mp hf.1
        exact roomInv_addUser h hfr n t
      | removeU s => exact roomInv_removeUser h s
    exact ih h1 hf.2

theorem countP_isAdmin_eq_one {m : UserMap} (hn : (mapKeys m).Nodup)
    {a : String} {u : User} (hmem : (a, u) ∈ m) (hadm : u.isAdmin = true)
    (huniq : ∀ p ∈ m, p.2.isAdmin = true → p = (a, u)) :
    m.countP (fun p => p.2.isAdmin) = 1 := by
  rw [List.countP_eq_length_filter]
  have hmemf : (a, u) ∈ m.filter (fun p => p.2.isAdmin) :=
    List.mem_filter.mpr ⟨hmem, hadm⟩
  have hall : ∀ q ∈ m.filter (fun p => p.2.isAdmin), q = (a, u) := by
    intro q hq
    have h' := List.mem_filter.mp hq
    exact huniq q h'.1 h'.2
  have hnd : (m.filter (fun p => p.2.isAdmin)).Nodup :=
    (hn.of_map _).filter _
  cases hfil : m.filter (fun p => p.2.isAdmin) with
  | nil => rw [hfil] at hmemf; cases hmemf
  | cons x tl =>
    rw [hfil] at hall hnd
    have hx : x = (a, u) := hall x (List.mem_cons_self _ _)
    have htl : tl = [] := by
      cases tl with
      | nil => rfl
      | cons y tl2 =>
        exfalso
        have hy : y = (a, u) := hall y (by simp)
        rw [List.nodup_cons] at hnd
        exact hnd.1 (by rw [hx, ← hy]; exact List.mem_cons_self _ _)
    rw [htl]
    rfl

/-! ### Claim C3: the unique-admin invariant -/

/-- The creator's room after `handleCreateRoom` (createRoom + addUser). -/
def c3room0 : Room :=
  (addUser (createRoom (fun s => s) true entZero dataDefault)
    "A" (some "Alice") 0).2

/-- `"B"` joins through the protocol handler. -/
def c3room1 : Room :=
  ((handleJoinRoom (some c3room0) "B" ⟨some "", some "Bob"⟩ 1).2).getD c3room0

/-- The admin's socket `"A"` sends `join-room` a second time. -/
def c3room2 : Room :=
  ((handleJoinRoom (some c3room1) "A" ⟨some "", some "Alice"⟩ 2).2).getD c3room0

/-- C3 (counterexample): `handleJoinRoom` never checks whether the socket is
already a member, and `addUser` rebuilds the user with
`isAdmin = (users.size === 0)`; a duplicate join by the admin therefore
reaches a non-empty room in which no user has `isAdmin = true`, while
`admin` still names the demoted entry. -/
theorem c3_admin_invariant_counterexample :
    c3room2.users.length = 2 ∧
    c3room2.users.countP (fun p => p.2.isAdmin) = 0 ∧
    c3room2.admin = some "A" ∧
    mapGet c3room2.users "A"
      = some { id := "A", name := some "Alice", isAdmin := false, joinedAt := 2 } := by
  refine ⟨by decide, by decide, by decide, by decide⟩

/-- C3 (amended): provided every `addUser` in the run uses a connection id
not currently in the users map, every reachable non-empty room state has
exactly one user with `isAdmin = true` and `admin` names exactly that user;
moreover removing the current admin while other users remain promotes a new
admin within the same `removeUser` call. -/
theorem c3_admin_invariant_amended (hash : String → String) (hasSec : Bool)
    (ent : Entropy) (d : CreateRoomData) (ops : List RoomOp)
    (hfresh : freshRun (createRoom hash hasSec ent d) ops = true) :
    ∀ room', room' = applyOps (createRoom hash hasSec ent d) ops →
      (room'.users ≠ [] →
        room'.users.countP (fun p => p.2.isAdmin) = 1 ∧
        ∃ a u, room'.admin = some a ∧ mapGet room'.users a = some u ∧
          u.isAdmin = true) ∧
      (∀ aid, room'.admin = some aid → mapDelete room'.users aid ≠ [] →
        ∃ na, (removeUser room' aid).1 = some na ∧
          na.isAdmin = true ∧
          (removeUser room' aid).2.admin = some na.id ∧
          mapGet (removeUser room' aid).2.users na.id = some na) := by
  intro room' hroom
  have hinv : roomInv room' := by
    rw [hroom]
    exact freshRun_roomInv (roomInv_of_users_nil rfl) hfresh
  obtain ⟨hn, hid, hadm⟩ := hinv
  constructor
  · intro hne
    obtain ⟨a, u, ha, hmem, huAdm, huniq⟩ := hadm hne
    exact ⟨countP_isAdmin_eq_one hn hmem huAdm huniq,
      a, u, ha, mapGet_of_mem_nodup hn hmem, huAdm⟩
  · intro aid haid hne'
    obtain ⟨p, rest, hcons⟩ : ∃ p rest, mapDelete room'.users aid = p :: rest := by
      cases hu : mapDelete room'.users aid with
      | nil => exact absurd hu hne'
      | cons x tl => exact ⟨x, tl, rfl⟩
    obtain ⟨hres1, hres2, hres3⟩ := removeUser_promotes haid hcons
    have hp_mem : p ∈ room'.users :=
      (mem_of_mem_mapDelete (hcons ▸ List.mem_cons_self p rest)).1
    have hpid : p.2.id = p.1 := hid p hp_mem
    have hinv' : roomInv (removeUser room' aid).2 :=
      roomInv_removeUser ⟨hn, hid, hadm⟩ aid
    have hmem'' : (p.1, { p.2 with isAdmin := true })
        ∈ (removeUser room' aid).2.users := by
      rw [hres3]
      simp
    refine ⟨{ p.2 with isAdmin := true }, hres1, rfl, ?_, ?_⟩
    · show (removeUser room' aid).2.admin
        = some ({ p.2 with isAdmin := true } : User).id
      rw [hres2]
      have : ({ p.2 with isAdmin := true } : User).id = p.1 := hpid
      rw [this]
    · have : ({ p.2 with isAdmin := true } : User).id = p.1 := hpid
      rw [this]
      exact mapGet_of_mem_nodup hinv'.1 hmem''

/-- A fresh three-user run used by the amended-claim witnesses. -/
def opsABC : List RoomOp :=
  [.addU "A" (some "Al") 1, .addU "B" (some "Bo") 2, .addU "C" (some "Ce") 3]

/-- Witness for C3 (amended) on a concrete three-user run. -/
theorem c3_admin_invariant_amended_witness :
    freshRun (createRoom (fun s => s) true entZero dataDefault) opsABC = true ∧
    (applyOps (createRoom (fun s => s) true entZero dataDefault) opsABC).users
      ≠ [] ∧
    ((applyOps (createRoom (fun s => s) true entZero dataDefault)
        opsABC).users.countP (fun p => p.2.isAdmin) = 1 ∧
     ∃ a u,
       (applyOps (createRoom (fun s => s) true entZero dataDefault)
         opsABC).admin = some a ∧
       mapGet (applyOps (createRoom (fun s => s) true entZero dataDefault)
         opsABC).users a = some u ∧
       u.isAdmin = true) := by
  refine ⟨by decide, by decide, ?_⟩
  exact (c3_admin_invariant_amended (fun s => s) true entZero dataDefault
    opsABC (by decide) _ rfl).1 (by decide)

/-! ### Claim C10: the promoted admin is the earliest-joined remaining member -/

/-- The join timestamps of the users map, in insertion order. -/
def joinTimes (m : UserMap) : List Nat := m.map (fun p => p.2.joinedAt)

/-- Time invariant for runs with nondecreasing clocks: the join timestamps
are nondecreasing along insertion order and bounded by the clock. -/
def timeInv (room : Room) (t0 : Nat) : Prop :=
  (joinTimes room.users).Chain' (· ≤ ·) ∧
  ∀ p ∈ room.users, p.2.joinedAt ≤ t0

theorem mem_of_getLast?_mem {α : Type} {l : List α} {x : α}
    (h : x ∈ l.getLast?) : x ∈ l := by
  rcases List.mem_getLast?_eq_getLast h with ⟨hne, rfl⟩
  exact List.getLast_mem hne

theorem timeInv_addUser {room : Room} {t0 : Nat} (ht : timeInv room t0)
    {s : String} (n : Option String) {t : Nat} (hle : t0 ≤ t)
    (hf : mapGet room.users s = none) :
    timeInv (addUser room s n t).2 t := by
  obtain ⟨hch, hbd⟩ := ht
  unfold timeInv
  rw [addUser_users_fresh hf]
  constructor
  · have hjt : joinTimes (room.users
        ++ [(s, User.mk s n (decide (room.users.length = 0)) t)])
        = joinTimes room.users ++ [t] := by
      simp [joinTimes]
    rw [hjt, List.chain'_append]
    refine ⟨hch, List.chain'_singleton _, ?_⟩
    intro x hx y hy
    have hy' : t = y := by simpa using hy
    have hx' : x ∈ joinTimes room.users := mem_of_getLast?_mem hx
    rcases List.mem_map.mp hx' with ⟨p, hp, rfl⟩
    exact hy' ▸ le_trans (hbd p hp) hle
  · intro p hp
    rcases List.mem_append.mp hp with hp' | hp'
    · exact le_trans (hbd p hp') hle
    · have hpe : p = (s, User.mk s n (decide (room.users.length = 0)) t) := by
        simpa using hp'
      rw [hpe]

theorem timeInv_removeUser {room : Room} {t0 : Nat}
    (hn : (mapKeys room.users).Nodup) (ht : timeInv room t0) (s : String) :
    timeInv (removeUser room s).2 t0 := by
  obtain ⟨hch, hbd⟩ := ht
  have hsub : List.Sublist (joinTimes (mapDelete room.users s))
      (joinTimes room.users) := by
    unfold joinTimes mapDelete
    exact (List.filter_sublist _).map _
  by_cases hc : room.admin = some s ∧ 0 < (mapDelete room.users s).length
  · obtain ⟨hadm_s, hlen⟩ := hc
    obtain ⟨p, rest, hcons⟩ : ∃ p rest, mapDelete room.users s = p :: rest := by
      cases hu : mapDelete room.users s with
      | nil => rw [hu] at hlen; cases hlen
      | cons x tl => exact ⟨x, tl, rfl⟩
    obtain ⟨-, -, hres3⟩ := removeUser_promotes hadm_s hcons
    have hn' : (mapKeys (p :: rest)).Nodup :=
      hcons ▸ hn.sublist (mapKeys_mapDelete_sublist _ _)
    have hp_mem0 : p ∈ room.users :=
      (mem_of_mem_mapDelete (hcons ▸ List.mem_cons_self p rest)).1
    have hjt : joinTimes ((removeUser room s).2.users)
        = joinTimes (p :: rest) := by
      rw [hres3]
      unfold joinTimes
      rw [List.map_map]
      apply List.map_congr_left
      intro q hq
      by_cases hq1 : q.1 = p.1
      · have hqp : q = p :=
          entry_eq_of_nodup hn' hq (List.mem_cons_self p rest) hq1
        simp [Function.comp, hq1, hqp]
      · simp [Function.comp, hq1]
    constructor
    · rw [hjt, ← hcons]
      exact hch.sublist hsub
    · intro q hq
      rw [hres3] at hq
      rcases List.mem_map.mp hq with ⟨q0, hq0, rfl⟩
      by_cases hq1 : q0.1 = p.1
      · simp only [hq1, if_pos]
        show ({ p.2 with isAdmin := true } : User).joinedAt ≤ t0
        exact hbd p hp_mem0
      · simp only [hq1, if_neg, ite_false]
        exact hbd q0 (mem_of_mem_mapDelete (hcons ▸ hq0)).1
  · obtain ⟨-, hres⟩ := removeUser_stale hc
    rw [hres]
    constructor
    · exact hch.sublist hsub
    · intro q hq
      exact hbd q (mem_of_mem_mapDelete hq).1

theorem freshMonoRun_timeInv :
    ∀ (ops : List RoomOp) (room : Room) (t0 : Nat),
      roomInv room → timeInv room t0 →
      freshRun room ops = true → monoRun t0 ops = true →
      ∃ t1, timeInv (applyOps room ops) t1 := by
  intro ops
  induction ops with
  | nil => intro room t0 _ ht _ _; exact ⟨t0, ht⟩
  | cons op rest ih =>
    intro room t0 hinv ht hf hm
    simp only [freshRun, Bool.and_eq_true] at hf
    cases op with
    | addU s n t =>
      simp only [monoRun, Bool.and_eq_true, decide_eq_true_eq] at hm
      have hfr : mapGet room.users s = none :=
        Option.isNone_iff_eq_none.mp hf.1
      exact ih (applyOp room (.addU s n t)) t
        (roomInv_addUser hinv hfr n t)
        (timeInv_addUser ht n hm.1 hfr)
        hf.2 hm.2
    | removeU s =>
      simp only [monoRun] at hm
      exact ih (applyOp room (.removeU s)) t0
        (roomInv_removeUser hinv s)
        (timeInv_removeUser hinv.1 ht s)
        hf.2 hm

/-- C10: on any reachable state (fresh ids, nondecreasing clock), removing
the current admin while other users remain promotes exactly the first entry
of the remaining users map in insertion order, and that entry has the
smallest `joinedAt` among the remaining members — the earliest joiner, not
an arbitrary one. -/
theorem c10_promotion_order (hash : String → String) (hasSec : Bool)
    (ent : Entropy) (d : CreateRoomData) (ops : List RoomOp) (aid : String)
    (hfresh : freshRun (createRoom hash hasSec ent d) ops = true)
    (hmono : monoRun 0 ops = true) :
    ∀ room', room' = applyOps (createRoom hash hasSec ent d) ops →
      room'.admin = some aid →
      mapDelete room'.users aid ≠ [] →
      ∃ p rest,
        mapDelete room'.users aid = p :: rest ∧
        (removeUser room' aid).1 = some { p.2 with isAdmin := true } ∧
        (removeUser room' aid).2.admin = some p.1 ∧
        ∀ q ∈ mapDelete room'.users aid, p.2.joinedAt ≤ q.2.joinedAt := by
  intro room' hroom haid hne'
  obtain ⟨p, rest, hcons⟩ : ∃ p rest, mapDelete room'.users aid = p :: rest := by
    cases hu : mapDelete room'.users aid with
    | nil => exact absurd hu hne'
    | cons x tl => exact ⟨x, tl, rfl⟩
  obtain ⟨hres1, hres2, -⟩ := removeUser_promotes haid hcons
  obtain ⟨t1, hch, -⟩ : ∃ t1, timeInv room' t1 := by
    rw [hroom]
    exact freshMonoRun_timeInv ops _ 0
      (roomInv_of_users_nil rfl)
      ⟨List.chain'_nil, by simp [createRoom]⟩
      hfresh hmono
  have hsub : List.Sublist (joinTimes (mapDelete room'.users aid))
      (joinTimes room'.users) := by
    unfold joinTimes mapDelete
    exact (List.filter_sublist _).map _
  have hch' : (joinTimes (p :: rest)).Chain' (· ≤ ·) :=
    hcons ▸ hch.sublist hsub
  have hpw : (joinTimes (p :: rest)).Pairwise (· ≤ ·) :=
    List.chain'_iff_pairwise.mp hch'
  have hmin : ∀ y ∈ joinTimes rest, p.2.joinedAt ≤ y := by
    have : joinTimes (p :: rest) = p.2.joinedAt :: joinTimes rest := rfl
    rw [this] at hpw
    exact (List.pairwise_cons.mp hpw).1
  refine ⟨p, rest, hcons, hres1, hres2, ?_⟩
  intro q hq
  rw [hcons] at hq
  rcases List.mem_cons.mp hq with rfl | hq'
  · exact le_refl _
  · exact hmin _ (List.mem_map_of_mem _ hq')

/-- Witness for C10: on the three-user run, removing admin `"A"` promotes
`"B"`, the head of the remaining map and its earliest joiner. -/
theorem c10_promotion_order_witness :
    freshRun (createRoom (fun s => s) true entZero dataDefault) opsABC = true ∧
    monoRun 0 opsABC = true ∧
    (applyOps (createRoom (fun s => s) true entZero dataDefault) opsABC).admin
      = some "A" ∧
    mapDelete (applyOps (createRoom (fun s => s) true entZero dataDefault)
      opsABC).users "A" ≠ [] ∧
    ∃ p rest,
      mapDelete (applyOps (createRoom (fun s => s) true entZero dataDefault)
        opsABC).users "A" = p :: rest ∧
      (removeUser (applyOps (createRoom (fun s => s) true entZero dataDefault)
        opsABC) "A").1 = some { p.2 with isAdmin := true } ∧
      (removeUser (applyOps (createRoom (fun s => s) true entZero dataDefault)
        opsABC) "A").2.admin = some p.1 ∧
      ∀ q ∈ mapDelete (applyOps (createRoom (fun s => s) true entZero
        dataDefault) opsABC).users "A", p.2.joinedAt ≤ q.2.joinedAt := by
  refine ⟨by decide, by decide, by decide, by decide, ?_⟩
  exact c10_promotion_order (fun s => s) true entZero dataDefault opsABC "A"
    (by decide) (by decide) _ rfl (by decide) (by decide)

end SyncWatch
